import Mathlib

/-
  Verification development for the pipewire-autoconnect rule-matching engine
  (src/main.rs).  The embedding covers the observation store (AppState and its
  admission operations), the link resolver (create_links), and the rule parser
  (parse_file together with the regex used to recognise link lines).

  Conventions of the embedding:
  * `Rc<T>` sharing is modelled by value: the definition records are immutable
    after parsing, so pointer identity and value identity coincide for them.
  * `u32` ids are modelled as `Nat`; the program never performs arithmetic on
    ids, so no wrap-around is observable.
  * `&mut self` methods are modelled as functions returning the new state
    (paired with the `bool` result where the source returns one).
  * side effects of `println!` that the spec treats as observable (the
    "invalid line" report) are modelled as an accumulator in the parser state;
    link-creation requests issued to the pipewire core are modelled as the
    list of requests returned by `create_links`.
  * `BufRead::lines` yields strings without the trailing newline, each read
    fallible; the stream of reads is modelled as `List (Except Unit String)`.
-/

/-- `struct Node { id: u32, name: String }` — a live node. -/
structure Node where
  id : Nat
  name : String
  deriving DecidableEq

/-- `struct Port { id: u32, name: String, node: Rc<Node> }` — a live port. -/
structure Port where
  id : Nat
  name : String
  node : Node
  deriving DecidableEq

/-- `struct NodeDef { name: String }` — a node declared by the rule file. -/
structure NodeDef where
  name : String
  deriving DecidableEq

/-- `struct PortDef { node: Rc<NodeDef>, name: String }` — a declared port. -/
structure PortDef where
  node : NodeDef
  name : String
  deriving DecidableEq

/-- `struct LinkDef { port_in: Rc<PortDef>, port_out: Rc<PortDef> }`. -/
structure LinkDef where
  port_in : PortDef
  port_out : PortDef
  deriving DecidableEq

/-- `struct AppState` — definition sets plus the live collections. -/
structure AppState where
  ports : List Port
  nodes : List Node
  get_names : Bool
  node_def : List NodeDef
  link_def : List LinkDef
  port_def : List PortDef
  deriving DecidableEq

/-- `fn search<T, P>(v: &[Rc<T>], f: P) -> Option<Rc<T>>`: filter by the
predicate and return the sole survivor, `None` unless exactly one matches. -/
def search {T : Type} (v : List T) (f : T → Bool) : Option T :=
  let n := v.filter f
  if n.length = 1 then n.head? else none

/-- `AppState::new`: empty live collections around the given definitions. -/
def AppState.new (node_def : List NodeDef) (link_def : List LinkDef)
    (port_def : List PortDef) (get_names : Bool) : AppState :=
  { node_def := node_def, link_def := link_def, port_def := port_def,
    get_names := get_names, ports := [], nodes := [] }

/-- `AppState::try_add_node`: reject when no NodeDef carries the name;
otherwise drop every live node of that name and push the new one. -/
def AppState.try_add_node (s : AppState) (d : Node) : Bool × AppState :=
  if !(s.node_def.any (fun a => a.name == d.name)) then (false, s)
  else
    let nodes := s.nodes.filter (fun a => !(a.name == d.name)) ++ [d]
    (true, { s with nodes := nodes })

/-- `AppState::get_node`: the unique live node with this id, if unique. -/
def AppState.get_node (s : AppState) (id : Nat) : Option Node :=
  search s.nodes (fun a => a.id == id)

/-- `AppState::get_port_by_name`: the unique live port with this name. -/
def AppState.get_port_by_name (s : AppState) (name : String) : Option Port :=
  search s.ports (fun a => a.name == name)

/-- `AppState::try_add_port`: resolve the owning node by id; require exactly
one PortDef matching (port name, owner node name); then replace-and-push. -/
def AppState.try_add_port (s : AppState) (id : Nat) (name : String)
    (node_id : Nat) : Bool × AppState :=
  match s.get_node node_id with
  | none => (false, s)
  | some node =>
    if (s.port_def.filter
        (fun a => a.name == name && a.node.name == node.name)).length ≠ 1 then
      (false, s)
    else
      let ports := s.ports.filter
          (fun a => !(a.name == name && a.node.name == node.name))
        ++ [{ id := id, name := name, node := node }]
      (true, { s with ports := ports })

/-- The payload of one `core.create_object::<pw::link::Link>` call. -/
structure LinkRequest where
  output_port : Nat
  input_port : Nat
  output_node : Nat
  input_node : Nat
  deriving DecidableEq

/-- `AppState::create_links`: filter the link definitions to those naming the
port, resolve both endpoints by name, keep the fully resolved ones and emit
one request each (the `TempLink` pipeline of the source). -/
def AppState.create_links (s : AppState) (port_name : String) :
    List LinkRequest :=
  ((s.link_def.filter
      (fun link => link.port_in.name == port_name
        || link.port_out.name == port_name)).map
    (fun a => (s.get_port_by_name a.port_in.name,
               s.get_port_by_name a.port_out.name))).filterMap
    (fun a =>
      match a with
      | (some pin, some pout) =>
        some { output_port := pout.id, input_port := pin.id,
               output_node := pout.node.id, input_node := pin.node.id }
      | _ => none)

/-- One admission event delivered by the registry listener. -/
inductive Op where
  | addNode (id : Nat) (name : String)
  | addPort (id : Nat) (name : String) (node_id : Nat)
  deriving DecidableEq

/-- Apply one admission event, discarding the boolean result. -/
def applyOp (s : AppState) (o : Op) : AppState :=
  match o with
  | .addNode id name => (s.try_add_node { id := id, name := name }).2
  | .addPort id name node_id => (s.try_add_port id name node_id).2

/-- Apply a sequence of admission events in order. -/
def applyOps (s : AppState) (ops : List Op) : AppState :=
  ops.foldl applyOp s

/- ------------------------------------------------------------------ -/
/- The link-line regex.

   `RE = \[(?P<node_out>.*)\]\((?P<port_out>.*)\)\s*->\s*\[(?P<node_in>.*)\]\((?P<port_in>.*)\)`

   The rust regex crate uses leftmost-first match semantics: the match
   starting earliest wins, and within a start position a greedy `.*` prefers
   the longest alternative, earlier groups taking priority over later ones.
   `.` matches every character except the newline.  We embed this fixed
   pattern as a backtracking matcher: `splitsDesc` enumerates the splits of
   the remaining input longest-prefix-first and `firstSome` commits to the
   first split whose continuation succeeds. -/

/-- Whitespace as matched by `\s` (the ASCII members; the rule lines at issue
contain no exotic Unicode whitespace). -/
def isSpace (c : Char) : Bool :=
  c = ' ' || c = '\t' || c = '\n' || c = '\x0b' || c = '\x0c' || c = '\r'

/-- All splits `(pre, suf)` with `s = pre ++ suf`, longest `pre` first —
the order in which a greedy `.*` proposes candidate captures. -/
def splitsDesc : List Char → List (List Char × List Char)
  | [] => [([], [])]
  | c :: cs => (splitsDesc cs).map (fun p => (c :: p.1, p.2)) ++ [([], c :: cs)]

/-- First success of `f` over the candidate list — backtracking priority. -/
def firstSome {α β : Type} : List α → (α → Option β) → Option β
  | [], _ => none
  | a :: l, f =>
    match f a with
    | some b => some b
    | none => firstSome l f

/-- Match `(?P<port_in>.*)\)` against the tail of the input (the suffix after
the final `)` is unconstrained because the regex is unanchored). -/
def matchG4 (s : List Char) : Option (List Char) :=
  firstSome (splitsDesc s) fun p =>
    match p.2 with
    | c :: _ =>
      if p.1.all (fun ch => ch != '\n') && (c == ')') then some p.1 else none
    | [] => none

/-- Match `(?P<node_in>.*)\]\((?P<port_in>.*)\)` against the tail. -/
def matchAfterLBrack2 (s : List Char) : Option (List Char × List Char) :=
  firstSome (splitsDesc s) fun p =>
    match p.2 with
    | c1 :: c2 :: rest =>
      if p.1.all (fun ch => ch != '\n') && (c1 == ']') && (c2 == '(') then
        (matchG4 rest).map (fun g4 => (p.1, g4))
      else none
    | _ => none

/-- Match `(?P<port_out>.*)\)\s*->\s*\[...` against the tail.  `\s*` followed
by a non-space literal consumes exactly the maximal space run, so it is
implemented by `dropWhile isSpace`. -/
def matchAfterLParen1 (s : List Char) :
    Option (List Char × List Char × List Char) :=
  firstSome (splitsDesc s) fun p =>
    match p.2 with
    | c0 :: rest =>
      if p.1.all (fun ch => ch != '\n') && (c0 == ')') then
        match rest.dropWhile isSpace with
        | c1 :: c2 :: rest2 =>
          if (c1 == '-') && (c2 == '>') then
            match rest2.dropWhile isSpace with
            | c3 :: rest3 =>
              if c3 == '[' then
                (matchAfterLBrack2 rest3).map (fun q => (p.1, q))
              else none
            | [] => none
          else none
        | _ => none
      else none
    | [] => none

/-- Match `(?P<node_out>.*)\]\(...` against the tail. -/
def matchAfterLBrack1 (s : List Char) :
    Option (List Char × List Char × List Char × List Char) :=
  firstSome (splitsDesc s) fun p =>
    match p.2 with
    | c1 :: c2 :: rest =>
      if p.1.all (fun ch => ch != '\n') && (c1 == ']') && (c2 == '(') then
        (matchAfterLParen1 rest).map (fun q => (p.1, q))
      else none
    | _ => none

/-- `RE.captures(line)`: try each start position left to right (a match can
only start at `[`); `some` also decides `RE.is_match`. -/
def matchRE : List Char → Option (List Char × List Char × List Char × List Char)
  | [] => none
  | c :: rest =>
    if c = '[' then
      match matchAfterLBrack1 rest with
      | some r => some r
      | none => matchRE rest
    else matchRE rest

/-- Declarative shape of a line the regex accepts: some substring decomposes
as `[A](B)` + spaces + `->` + spaces + `[C](D)`, the four groups free of
newlines (`.` does not match a newline; the space runs may, `\s` does). -/
def IsLinkShape (s : List Char) : Prop :=
  ∃ pre A B w1 w2 C D suf,
    s = pre ++ '[' :: (A ++ ']' :: '(' :: (B ++ ')' ::
        (w1 ++ '-' :: '>' :: (w2 ++ '[' :: (C ++ ']' :: '(' ::
        (D ++ ')' :: suf)))))) ∧
    A.all (fun c => c != '\n') = true ∧
    B.all (fun c => c != '\n') = true ∧
    C.all (fun c => c != '\n') = true ∧
    D.all (fun c => c != '\n') = true ∧
    w1.all isSpace = true ∧ w2.all isSpace = true

/- ------------------------------------------------------------------ -/
/- The pattern as the spec words it (for comparison with `matchRE`):
   "each bracketed/parenthesized group captures an arbitrary non-greedy run
   of characters excluding the respective closing delimiter".  Non-greedy:
   shortest candidate first; node groups exclude `]`, port groups `)`. -/

/-- Splits shortest-prefix-first: the order a non-greedy group proposes. -/
def splitsAsc (s : List Char) : List (List Char × List Char) :=
  (splitsDesc s).reverse

/-- Modelled from the spec: non-greedy `port_in` group excluding `)`. -/
def specG4 (s : List Char) : Option (List Char) :=
  firstSome (splitsAsc s) fun p =>
    if p.1.all (fun c => c != ')') then
      match p.2 with
      | ')' :: _ => some p.1
      | _ => none
    else none

/-- Modelled from the spec: non-greedy `node_in` group excluding `]`. -/
def specAfterLBrack2 (s : List Char) : Option (List Char × List Char) :=
  firstSome (splitsAsc s) fun p =>
    if p.1.all (fun c => c != ']') then
      match p.2 with
      | ']' :: '(' :: rest => (specG4 rest).map (fun g4 => (p.1, g4))
      | _ => none
    else none

/-- Modelled from the spec: non-greedy `port_out` group excluding `)`,
then optional whitespace around `->`. -/
def specAfterLParen1 (s : List Char) :
    Option (List Char × List Char × List Char) :=
  firstSome (splitsAsc s) fun p =>
    if p.1.all (fun c => c != ')') then
      match p.2 with
      | ')' :: rest =>
        match rest.dropWhile isSpace with
        | '-' :: '>' :: rest2 =>
          match rest2.dropWhile isSpace with
          | '[' :: rest3 => (specAfterLBrack2 rest3).map (fun q => (p.1, q))
          | _ => none
        | _ => none
      | _ => none
    else none

/-- Modelled from the spec: non-greedy `node_out` group excluding `]`. -/
def specAfterLBrack1 (s : List Char) :
    Option (List Char × List Char × List Char × List Char) :=
  firstSome (splitsAsc s) fun p =>
    if p.1.all (fun c => c != ']') then
      match p.2 with
      | ']' :: '(' :: rest => (specAfterLParen1 rest).map (fun q => (p.1, q))
      | _ => none
    else none

/-- Modelled from the spec: the claimed link-line pattern, leftmost start. -/
def specMatchRE : List Char →
    Option (List Char × List Char × List Char × List Char)
  | [] => none
  | c :: rest =>
    if c = '[' then
      match specAfterLBrack1 rest with
      | some r => some r
      | none => specMatchRE rest
    else specMatchRE rest

/- ------------------------------------------------------------------ -/
/- The parser `parse_file`. -/

/-- Parser accumulator: the two `HashMap`s (as association lists in insertion
order — the claims never depend on iteration order), the link list, and the
lines reported via `println!("invalid line: ...")`. -/
structure ParseState where
  node_def : List (String × NodeDef)
  port_def : List (String × PortDef)
  link_def : List LinkDef
  invalid : List String
  deriving DecidableEq

/-- The accumulator before any line is processed. -/
def emptyParseState : ParseState := ⟨[], [], [], []⟩

/-- `node_def.get_mut(name)` / `insert`: reuse the entry when the key is
present, otherwise bind a fresh `NodeDef` to the name. -/
def getOrInsertNode (m : List (String × NodeDef)) (name : String) :
    NodeDef × List (String × NodeDef) :=
  match m.find? (fun p => p.1 == name) with
  | some p => (p.2, m)
  | none =>
    let nd : NodeDef := { name := name }
    (nd, m ++ [(name, nd)])

/-- `port_def.get_mut(name)` / `insert`: keyed by the port name alone; the
node argument is only used when the entry is created. -/
def getOrInsertPort (m : List (String × PortDef)) (name : String)
    (node : NodeDef) : PortDef × List (String × PortDef) :=
  match m.find? (fun p => p.1 == name) with
  | some p => (p.2, m)
  | none =>
    let pd : PortDef := { node := node, name := name }
    (pd, m ++ [(name, pd)])

/-- One iteration of the `for line in reader.lines()` body: on a regex match
resolve-or-create the two node defs, then the two port defs, and append the
link; otherwise skip silently iff the line starts with `#` (no trimming). -/
def processLine (st : ParseState) (line : String) : ParseState :=
  match matchRE line.data with
  | some (nodeOutC, portOutC, nodeInC, portInC) =>
    let r1 := getOrInsertNode st.node_def (String.mk nodeOutC)
    let r2 := getOrInsertNode r1.2 (String.mk nodeInC)
    let r3 := getOrInsertPort st.port_def (String.mk portOutC) r1.1
    let r4 := getOrInsertPort r3.2 (String.mk portInC) r2.1
    { st with
      node_def := r2.2
      port_def := r4.2
      link_def := st.link_def ++ [{ port_out := r3.1, port_in := r4.1 }] }
  | none =>
    if line.data.head? = some '#' then st
    else { st with invalid := st.invalid ++ [line] }

/-- The loop over a list of successfully read lines. -/
def processLines (st : ParseState) (lines : List String) : ParseState :=
  lines.foldl processLine st

/-- The loop over fallible reads: `let line = line?` aborts on the first
failed read. -/
def runLines (st : ParseState) : List (Except Unit String) →
    Except Unit ParseState
  | [] => .ok st
  | .error e :: _ => .error e
  | .ok line :: rest => runLines (processLine st line) rest

/-- `parse_file` on an already-opened reader: run all reads, then package the
map values and the link list into a fresh `AppState`. -/
def parse_file (reads : List (Except Unit String)) (get_names : Bool) :
    Except Unit AppState :=
  (runLines emptyParseState reads).map
    (fun st => AppState.new (st.node_def.map (fun p => p.2)) st.link_def
      (st.port_def.map (fun p => p.2)) get_names)

/-- States produced by feeding some admission sequence to a fresh store. -/
def Reachable (s : AppState) : Prop :=
  ∃ node_def link_def port_def get_names ops,
    s = applyOps (AppState.new node_def link_def port_def get_names) ops

/-- Every node-map entry's value carries its key as its name. -/
def NodeMapWF (m : List (String × NodeDef)) : Prop :=
  ∀ pr ∈ m, pr.2.name = pr.1

/-- Every port-map entry's value carries its key as its name. -/
def PortMapWF (m : List (String × PortDef)) : Prop :=
  ∀ pr ∈ m, pr.2.name = pr.1

/-- The port-map's keys are pairwise distinct. -/
def PortKeysNodup (m : List (String × PortDef)) : Prop :=
  (m.map (fun pr => pr.1)).Nodup

/- ------------------------------------------------------------------ -/
/- Theorems.  Helper lemmas first, then one theorem per claim (with the
   witness / counterexample theorems the claim's status requires). -/

theorem search_eq_some_iff {T : Type} (v : List T) (f : T → Bool) (x : T) :
    search v f = some x ↔ v.filter f = [x] := by
  unfold search
  rcases hf : v.filter f with _ | ⟨a, _ | ⟨b, l⟩⟩ <;> simp [hf]

theorem search_eq_none_iff {T : Type} (v : List T) (f : T → Bool) :
    search v f = none ↔ (v.filter f).length ≠ 1 := by
  unfold search
  by_cases h : (v.filter f).length = 1
  · rw [if_pos h]
    constructor
    · intro hn
      rcases hf : v.filter f with _ | ⟨a, t⟩
      · rw [hf] at h; simp at h
      · rw [hf] at hn; simp at hn
    · intro hne
      exact absurd h hne
  · rw [if_neg h]
    simp [h]

/-- C8: `get_port_by_name` returns the live port carrying the name when
exactly one does, and returns `none` both when none does and when several
do — never an arbitrary pick. -/
theorem claim_C8 (s : AppState) (name : String) :
    (∀ p : Port, s.ports.filter (fun a => a.name == name) = [p] →
      s.get_port_by_name name = some p) ∧
    ((s.ports.filter (fun a => a.name == name)).length ≠ 1 →
      s.get_port_by_name name = none) := by
  constructor
  · intro p hp
    unfold AppState.get_port_by_name
    exact (search_eq_some_iff _ _ _).2 hp
  · intro h
    unfold AppState.get_port_by_name
    exact (search_eq_none_iff _ _).2 h

/-- Witness for C8 at a concrete one-port store. -/
theorem claim_C8_witness :
    (⟨[⟨1, "p", ⟨2, "n"⟩⟩], [], false, [], [], []⟩ : AppState).get_port_by_name
      "p" = some ⟨1, "p", ⟨2, "n"⟩⟩ :=
  (claim_C8 _ "p").1 _ (by decide)

/-- C4: `try_add_node` rejects (returning `false` with the store unchanged)
when no NodeDef carries the name; `try_add_port` rejects when the owning node
id resolves to no live node, or when the number of PortDefs matching (port
name, owner name) is not exactly one. -/
theorem claim_C4 :
    (∀ (s : AppState) (d : Node), (¬ ∃ nd ∈ s.node_def, nd.name = d.name) →
      s.try_add_node d = (false, s)) ∧
    (∀ (s : AppState) (id : Nat) (name : String) (node_id : Nat),
      (s.get_node node_id = none →
        s.try_add_port id name node_id = (false, s)) ∧
      (∀ node, s.get_node node_id = some node →
        (s.port_def.filter
          (fun a => a.name == name && a.node.name == node.name)).length ≠ 1 →
        s.try_add_port id name node_id = (false, s))) := by
  constructor
  · intro s d h
    have hany : s.node_def.any (fun a => a.name == d.name) = false := by
      rw [List.any_eq_false]
      intro a ha
      simp only [beq_iff_eq]
      exact fun he => h ⟨a, ha, he⟩
    simp [AppState.try_add_node, hany]
  · intro s id name node_id
    constructor
    · intro h
      unfold AppState.try_add_port
      rw [h]
    · intro node hn hlen
      unfold AppState.try_add_port
      rw [hn]
      simp only [if_pos hlen]

/-- Witness for C4: a store with only NodeDef "X" rejects node "Y" unchanged,
and an empty store rejects any port admission unchanged. -/
theorem claim_C4_witness :
    (⟨[], [], false, [⟨"X"⟩], [], []⟩ : AppState).try_add_node ⟨1, "Y"⟩ =
      (false, ⟨[], [], false, [⟨"X"⟩], [], []⟩) ∧
    (⟨[], [], false, [], [], []⟩ : AppState).try_add_port 7 "p" 5 =
      (false, ⟨[], [], false, [], [], []⟩) :=
  ⟨claim_C4.1 _ _ (by decide), (claim_C4.2 _ 7 "p" 5).1 (by decide)⟩

/-- C10 (frame): `try_add_node` touches at most `nodes`; `try_add_port`
touches at most `ports`; neither ever modifies a definition set. -/
theorem claim_C10 (s : AppState) (d : Node) (id : Nat) (name : String)
    (node_id : Nat) :
    ((s.try_add_node d).2.ports = s.ports ∧
     (s.try_add_node d).2.node_def = s.node_def ∧
     (s.try_add_node d).2.port_def = s.port_def ∧
     (s.try_add_node d).2.link_def = s.link_def) ∧
    ((s.try_add_port id name node_id).2.nodes = s.nodes ∧
     (s.try_add_port id name node_id).2.node_def = s.node_def ∧
     (s.try_add_port id name node_id).2.port_def = s.port_def ∧
     (s.try_add_port id name node_id).2.link_def = s.link_def) := by
  constructor
  · unfold AppState.try_add_node
    split_ifs <;> simp
  · unfold AppState.try_add_port
    cases hn : s.get_node node_id with
    | none => simp
    | some node =>
      dsimp only
      split_ifs <;> simp

theorem create_links_eq (s : AppState) (pn : String) :
    s.create_links pn =
      (s.link_def.filter
        (fun link => link.port_in.name == pn
          || link.port_out.name == pn)).filterMap
        (fun d =>
          match s.get_port_by_name d.port_in.name,
              s.get_port_by_name d.port_out.name with
          | some pin, some pout =>
            some ⟨pout.id, pin.id, pout.node.id, pin.node.id⟩
          | _, _ => none) := by
  unfold AppState.create_links
  rw [List.filterMap_map]
  congr 1
  funext d
  simp only [Function.comp_apply]
  cases h1 : s.get_port_by_name d.port_in.name <;>
    cases h2 : s.get_port_by_name d.port_out.name <;> rfl

/-- C1: for a link definition referencing the just-admitted port name, a
link-creation request is emitted iff both endpoint names resolve through
`get_port_by_name`; and every emitted request stems from some fully resolved
referencing definition — none from a partially resolved one. -/
theorem claim_C1 (s : AppState) (pn : String) :
    (∀ d ∈ s.link_def, (d.port_in.name = pn ∨ d.port_out.name = pn) →
      (((s.get_port_by_name d.port_out.name).isSome ∧
        (s.get_port_by_name d.port_in.name).isSome) ↔
       ∃ po pi, s.get_port_by_name d.port_out.name = some po ∧
         s.get_port_by_name d.port_in.name = some pi ∧
         (⟨po.id, pi.id, po.node.id, pi.node.id⟩ : LinkRequest) ∈
           s.create_links pn)) ∧
    (∀ r ∈ s.create_links pn, ∃ d ∈ s.link_def,
      (d.port_in.name = pn ∨ d.port_out.name = pn) ∧
      ∃ po pi, s.get_port_by_name d.port_out.name = some po ∧
        s.get_port_by_name d.port_in.name = some pi ∧
        r = ⟨po.id, pi.id, po.node.id, pi.node.id⟩) := by
  constructor
  · intro d hd href
    constructor
    · rintro ⟨ho, hi⟩
      rcases Option.isSome_iff_exists.1 ho with ⟨po, hpo⟩
      rcases Option.isSome_iff_exists.1 hi with ⟨pi, hpi⟩
      refine ⟨po, pi, hpo, hpi, ?_⟩
      rw [create_links_eq]
      apply List.mem_filterMap.2
      refine ⟨d, List.mem_filter.2 ⟨hd, ?_⟩, ?_⟩
      · rcases href with h | h <;> simp [h]
      · rw [hpi, hpo]
    · rintro ⟨po, pi, hpo, hpi, _⟩
      exact ⟨by rw [hpo]; rfl, by rw [hpi]; rfl⟩
  · intro r hr
    rw [create_links_eq] at hr
    rcases List.mem_filterMap.1 hr with ⟨d, hdf, hfd⟩
    rcases List.mem_filter.1 hdf with ⟨hd, hcond⟩
    refine ⟨d, hd, ?_, ?_⟩
    · rcases Bool.or_eq_true_iff.1 hcond with h | h
      · exact Or.inl (by simpa using h)
      · exact Or.inr (by simpa using h)
    · rcases hpi : s.get_port_by_name d.port_in.name with _ | pin <;>
        rcases hpo : s.get_port_by_name d.port_out.name with _ | pout <;>
        rw [hpi, hpo] at hfd
      · simp at hfd
      · simp at hfd
      · simp at hfd
      · refine ⟨pout, pin, rfl, rfl, ?_⟩
        simpa using hfd.symm

/-- Witness for C1 at a concrete two-port store with one link definition. -/
theorem claim_C1_witness :
    ∃ po pi,
      (⟨[⟨10, "po", ⟨1, "NO"⟩⟩, ⟨11, "pi", ⟨2, "NI"⟩⟩], [], false, [],
        [⟨⟨⟨"NI"⟩, "pi"⟩, ⟨⟨"NO"⟩, "po"⟩⟩], []⟩ : AppState).get_port_by_name
        (⟨⟨⟨"NI"⟩, "pi"⟩, ⟨⟨"NO"⟩, "po"⟩⟩ : LinkDef).port_out.name = some po ∧
      (⟨[⟨10, "po", ⟨1, "NO"⟩⟩, ⟨11, "pi", ⟨2, "NI"⟩⟩], [], false, [],
        [⟨⟨⟨"NI"⟩, "pi"⟩, ⟨⟨"NO"⟩, "po"⟩⟩], []⟩ : AppState).get_port_by_name
        (⟨⟨⟨"NI"⟩, "pi"⟩, ⟨⟨"NO"⟩, "po"⟩⟩ : LinkDef).port_in.name = some pi ∧
      (⟨po.id, pi.id, po.node.id, pi.node.id⟩ : LinkRequest) ∈
        (⟨[⟨10, "po", ⟨1, "NO"⟩⟩, ⟨11, "pi", ⟨2, "NI"⟩⟩], [], false, [],
          [⟨⟨⟨"NI"⟩, "pi"⟩, ⟨⟨"NO"⟩, "po"⟩⟩], []⟩ : AppState).create_links
          "po" :=
  ((claim_C1 _ "po").1 _ (by decide) (by decide)).mp (by decide)

theorem try_add_node_frame (s : AppState) (d : Node) :
    (s.try_add_node d).2.ports = s.ports ∧
    (s.try_add_node d).2.node_def = s.node_def ∧
    (s.try_add_node d).2.port_def = s.port_def ∧
    (s.try_add_node d).2.link_def = s.link_def := by
  unfold AppState.try_add_node
  split_ifs <;> simp

theorem try_add_port_frame (s : AppState) (id : Nat) (name : String)
    (node_id : Nat) :
    (s.try_add_port id name node_id).2.nodes = s.nodes ∧
    (s.try_add_port id name node_id).2.node_def = s.node_def ∧
    (s.try_add_port id name node_id).2.port_def = s.port_def ∧
    (s.try_add_port id name node_id).2.link_def = s.link_def := by
  unfold AppState.try_add_port
  cases hn : s.get_node node_id with
  | none => simp
  | some node =>
    dsimp only
    split_ifs <;> simp

theorem upsert_filter_length_le {α : Type} (l : List α) (k p : α → Bool)
    (x : α) (hlen : (l.filter p).length ≤ 1)
    (hcase : (∀ a, p a = true → k a = true) ∨ p x = false) :
    (((l.filter (fun a => !(k a))) ++ [x]).filter p).length ≤ 1 := by
  rw [List.filter_append, List.length_append]
  rcases hcase with hpk | hpx
  · have h0 : (l.filter (fun a => !(k a))).filter p = [] := by
      rw [List.filter_eq_nil_iff]
      intro a ha hpa
      rcases List.mem_filter.1 ha with ⟨_, hk⟩
      rw [hpk a hpa] at hk
      exact absurd hk (by simp)
    rw [h0]
    have hx : (List.filter p [x]).length ≤ 1 := by
      cases hp : p x <;> simp [List.filter_cons, hp]
    simpa using hx
  · have h1 : List.filter p [x] = [] := by simp [List.filter_cons, hpx]
    rw [h1]
    have hsub : ((l.filter (fun a => !(k a))).filter p).Sublist (l.filter p) :=
      List.Sublist.filter p (List.filter_sublist l)
    simpa using le_trans hsub.length_le hlen

theorem applyOp_unique_nodes (s : AppState) (o : Op) (nm : String)
    (h : ((s.nodes.filter (fun a => a.name == nm)).length ≤ 1)) :
    (((applyOp s o).nodes.filter (fun a => a.name == nm)).length ≤ 1) := by
  cases o with
  | addNode id name0 =>
    dsimp only [applyOp]
    unfold AppState.try_add_node
    split_ifs with hc
    · exact h
    · dsimp only
      apply upsert_filter_length_le _ _ _ _ h
      by_cases hnm : nm = name0
      · subst hnm
        exact Or.inl (fun a ha => ha)
      · refine Or.inr ?_
        simp only [beq_iff_eq]
        simpa using fun he => hnm he.symm
  | addPort id name0 node_id =>
    have hfr := (try_add_port_frame s id name0 node_id).1
    dsimp only [applyOp]
    rw [hfr]
    exact h

theorem applyOp_unique_ports (s : AppState) (o : Op) (pn own : String)
    (h : ((s.ports.filter
      (fun a => a.name == pn && a.node.name == own)).length ≤ 1)) :
    (((applyOp s o).ports.filter
      (fun a => a.name == pn && a.node.name == own)).length ≤ 1) := by
  cases o with
  | addNode id name0 =>
    have hfr := (try_add_node_frame s ⟨id, name0⟩).1
    dsimp only [applyOp]
    rw [hfr]
    exact h
  | addPort id name0 node_id =>
    dsimp only [applyOp]
    unfold AppState.try_add_port
    cases hg : s.get_node node_id with
    | none => exact h
    | some node =>
      dsimp only
      split_ifs with hc
      · exact h
      · apply upsert_filter_length_le _ _ _ _ h
        by_cases hpn : pn = name0
        · by_cases hon : own = node.name
          · subst hpn; subst hon
            exact Or.inl (fun a ha => ha)
          · refine Or.inr ?_
            have : (node.name == own) = false := by
              simp only [beq_eq_false_iff_ne, ne_eq]
              exact fun he => hon he.symm
            simp [this]
        · refine Or.inr ?_
          have : (name0 == pn) = false := by
            simp only [beq_eq_false_iff_ne, ne_eq]
            exact fun he => hpn he.symm
          simp [this]

theorem applyOps_unique (s : AppState) (ops : List Op)
    (hn : ∀ nm : String,
      ((s.nodes.filter (fun a => a.name == nm)).length ≤ 1))
    (hp : ∀ pn own : String, ((s.ports.filter
      (fun a => a.name == pn && a.node.name == own)).length ≤ 1)) :
    (∀ nm : String,
      (((applyOps s ops).nodes.filter (fun a => a.name == nm)).length ≤ 1)) ∧
    (∀ pn own : String, (((applyOps s ops).ports.filter
      (fun a => a.name == pn && a.node.name == own)).length ≤ 1)) := by
  induction ops generalizing s with
  | nil => exact ⟨hn, hp⟩
  | cons o rest ih =>
    simp only [applyOps, List.foldl_cons]
    exact ih (applyOp s o)
      (fun nm => applyOp_unique_nodes s o nm (hn nm))
      (fun pn own => applyOp_unique_ports s o pn own (hp pn own))

/-- C2: starting from an empty store, any interleaving of node and port
admissions keeps at most one live node per name and at most one live port per
(name, owner-name) pair; a successful duplicate admission leaves the new
entry as the sole occupant of its identity slot. -/
theorem claim_C2 (node_def : List NodeDef) (link_def : List LinkDef)
    (port_def : List PortDef) (gn : Bool) (ops : List Op) :
    (∀ nm : String,
      (((applyOps (AppState.new node_def link_def port_def gn) ops).nodes.filter
        (fun a => a.name == nm)).length ≤ 1)) ∧
    (∀ pn own : String,
      (((applyOps (AppState.new node_def link_def port_def gn) ops).ports.filter
        (fun a => a.name == pn && a.node.name == own)).length ≤ 1)) ∧
    (∀ (s : AppState) (d : Node), (s.try_add_node d).1 = true →
      ((s.try_add_node d).2.nodes.filter (fun a => a.name == d.name)) = [d]) ∧
    (∀ (s : AppState) (id : Nat) (name : String) (node_id : Nat) (node : Node),
      s.get_node node_id = some node →
      (s.try_add_port id name node_id).1 = true →
      ((s.try_add_port id name node_id).2.ports.filter
        (fun a => a.name == name && a.node.name == node.name)) =
        [⟨id, name, node⟩]) := by
  have base := applyOps_unique (AppState.new node_def link_def port_def gn) ops
    (by intro nm; simp [AppState.new]) (by intro pn own; simp [AppState.new])
  refine ⟨base.1, base.2, ?_, ?_⟩
  · intro s d hres
    unfold AppState.try_add_node at hres ⊢
    split_ifs at hres ⊢ with hc
    dsimp only
    rw [List.filter_append]
    have h0 : (s.nodes.filter (fun a => !(a.name == d.name))).filter
        (fun a => a.name == d.name) = [] := by
      rw [List.filter_eq_nil_iff]
      intro a ha hpa
      rcases List.mem_filter.1 ha with ⟨_, hk⟩
      rw [hpa] at hk
      exact absurd hk (by simp)
    rw [h0]
    simp
  · intro s id name node_id node hg hres
    unfold AppState.try_add_port at hres ⊢
    rw [hg] at hres ⊢
    dsimp only at hres ⊢
    split_ifs at hres ⊢ with hc
    rw [List.filter_append]
    have h0 : (s.ports.filter
        (fun a => !(a.name == name && a.node.name == node.name))).filter
        (fun a => a.name == name && a.node.name == node.name) = [] := by
      rw [List.filter_eq_nil_iff]
      intro a ha hpa
      rcases List.mem_filter.1 ha with ⟨_, hk⟩
      rw [hpa] at hk
      exact absurd hk (by simp)
    rw [h0]
    simp

/-- Witness for C2's replacement clauses at concrete stores. -/
theorem claim_C2_witness :
    ((⟨[], [⟨1, "N"⟩], false, [⟨"N"⟩], [], []⟩ : AppState).try_add_node
        ⟨2, "N"⟩).2.nodes.filter (fun a => a.name == (⟨2, "N"⟩ : Node).name) =
      [⟨2, "N"⟩] ∧
    ((⟨[⟨5, "p", ⟨1, "N"⟩⟩], [⟨1, "N"⟩], false, [⟨"N"⟩], [],
        [⟨⟨"N"⟩, "p"⟩]⟩ : AppState).try_add_port 6 "p" 1).2.ports.filter
        (fun a => a.name == "p" && a.node.name == (⟨1, "N"⟩ : Node).name) =
      [⟨6, "p", ⟨1, "N"⟩⟩] :=
  ⟨(claim_C2 [] [] [] false []).2.2.1 _ ⟨2, "N"⟩ (by decide),
   (claim_C2 [] [] [] false []).2.2.2 _ 6 "p" 1 ⟨1, "N"⟩ (by decide) (by decide)⟩

theorem applyOp_node_def (s : AppState) (o : Op) :
    (applyOp s o).node_def = s.node_def := by
  cases o with
  | addNode id name0 =>
    dsimp only [applyOp]
    exact (try_add_node_frame s _).2.1
  | addPort id name0 node_id =>
    dsimp only [applyOp]
    exact (try_add_port_frame s _ _ _).2.1

theorem applyOps_node_def (s : AppState) (ops : List Op) :
    (applyOps s ops).node_def = s.node_def := by
  induction ops generalizing s with
  | nil => rfl
  | cons o rest ih =>
    have h1 : applyOps s (o :: rest) = applyOps (applyOp s o) rest := rfl
    rw [h1, ih (applyOp s o), applyOp_node_def]

theorem mem_nodes_applyOp (s : AppState) (o : Op) (n : Node)
    (hn : n ∈ (applyOp s o).nodes) :
    n ∈ s.nodes ∨ ∃ d ∈ s.node_def, d.name = n.name := by
  cases o with
  | addNode id name0 =>
    dsimp only [applyOp] at hn
    unfold AppState.try_add_node at hn
    split_ifs at hn with hc
    · exact Or.inl hn
    · dsimp only at hn
      rcases List.mem_append.1 hn with h | h
      · exact Or.inl (List.mem_filter.1 h).1
      · have hx : n = ⟨id, name0⟩ := by simpa using h
        have hany : s.node_def.any (fun a => a.name == name0) = true := by
          have := Bool.not_eq_true' .. ▸ hc
          simpa using hc
        rcases List.any_eq_true.1 hany with ⟨d, hd, hdn⟩
        refine Or.inr ⟨d, hd, ?_⟩
        rw [hx]
        simpa using hdn
  | addPort id name0 node_id =>
    dsimp only [applyOp] at hn
    rw [(try_add_port_frame s id name0 node_id).1] at hn
    exact Or.inl hn

theorem mem_nodes_applyOps (s : AppState) (ops : List Op) (n : Node)
    (hn : n ∈ (applyOps s ops).nodes) :
    n ∈ s.nodes ∨ ∃ d ∈ s.node_def, d.name = n.name := by
  induction ops generalizing s with
  | nil => exact Or.inl hn
  | cons o rest ih =>
    simp only [applyOps, List.foldl_cons] at hn
    rcases ih (applyOp s o) hn with h | h
    · exact mem_nodes_applyOp s o n h
    · rw [applyOp_node_def] at h
      exact Or.inr h

theorem reachable_nodes_def (s : AppState) (h : Reachable s) (n : Node)
    (hn : n ∈ s.nodes) : ∃ d ∈ s.node_def, d.name = n.name := by
  rcases h with ⟨nd, ld, pd, gnm, ops, rfl⟩
  rcases mem_nodes_applyOps _ ops n hn with h0 | h0
  · simp [AppState.new] at h0
  · rw [applyOps_node_def]
    simpa [AppState.new] using h0

/-- Counterexample to C3: ids are never deduplicated, so a reachable store
can hold two live nodes sharing id 1 under different names.  The store below
contains LiveNode ⟨1, "N"⟩; admitting ⟨2, "N"⟩ succeeds, yet `get_node 1`
still returns the other id-1 node instead of absent. -/
theorem claim_C3_cx :
    (⟨1, "N"⟩ : Node) ∈ (applyOps (AppState.new [⟨"N"⟩, ⟨"M"⟩] [] [] false)
      [.addNode 1 "N", .addNode 1 "M"]).nodes ∧
    ((applyOps (AppState.new [⟨"N"⟩, ⟨"M"⟩] [] [] false)
      [.addNode 1 "N", .addNode 1 "M"]).try_add_node ⟨2, "N"⟩).1 = true ∧
    ((applyOps (AppState.new [⟨"N"⟩, ⟨"M"⟩] [] [] false)
      [.addNode 1 "N", .addNode 1 "M"]).try_add_node ⟨2, "N"⟩).2.get_node 1 =
      some ⟨1, "M"⟩ := by
  decide

/-- C3 as amended: in a reachable store holding LiveNode ⟨A, N⟩, admitting
⟨B, N⟩ with B ≠ A succeeds and replaces the entry, and — provided no other
live node shares id A and no node outside the replaced name-slot carries
id B — the old id A is no longer resolvable while B resolves to the new
node. -/
theorem claim_C3_amended (s : AppState) (A B : Nat) (N : String)
    (hreach : Reachable s) (hmem : (⟨A, N⟩ : Node) ∈ s.nodes) (hAB : A ≠ B)
    (hA : ∀ n ∈ s.nodes, n.id = A → n.name = N)
    (hB : ∀ n ∈ s.nodes, n.id = B → n.name = N) :
    (s.try_add_node ⟨B, N⟩).1 = true ∧
    (s.try_add_node ⟨B, N⟩).2.get_node A = none ∧
    (s.try_add_node ⟨B, N⟩).2.get_node B = some ⟨B, N⟩ := by
  obtain ⟨d, hd, hdn⟩ := reachable_nodes_def s hreach _ hmem
  have hany : s.node_def.any (fun a => a.name == (⟨B, N⟩ : Node).name) = true :=
    List.any_eq_true.2 ⟨d, hd, by simpa using hdn⟩
  have hnodes : (s.try_add_node ⟨B, N⟩).2.nodes =
      s.nodes.filter (fun a => !(a.name == N)) ++ [⟨B, N⟩] := by
    unfold AppState.try_add_node
    rw [hany]
    rfl
  refine ⟨?_, ?_, ?_⟩
  · unfold AppState.try_add_node
    rw [hany]
    rfl
  · unfold AppState.get_node
    rw [hnodes]
    apply (search_eq_none_iff _ _).2
    have h0 : (s.nodes.filter (fun a => !(a.name == N)) ++ [(⟨B, N⟩ : Node)]).filter
        (fun a => a.id == A) = [] := by
      rw [List.filter_append, List.filter_eq_nil_iff.2, List.filter_eq_nil_iff.2]
      · rfl
      · intro a ha hid
        have hx : a = (⟨B, N⟩ : Node) := List.mem_singleton.1 ha
        rw [hx] at hid
        have hBA : B = A := by simpa using hid
        exact hAB hBA.symm
      · intro a ha hid
        rcases List.mem_filter.1 ha with ⟨hmem2, hne⟩
        have : a.name = N := hA a hmem2 (by simpa using hid)
        rw [this] at hne
        exact absurd hne (by simp)
    rw [h0]
    simp
  · unfold AppState.get_node
    rw [hnodes]
    apply (search_eq_some_iff _ _ _).2
    rw [List.filter_append]
    have h0 : (s.nodes.filter (fun a => !(a.name == N))).filter
        (fun a => a.id == B) = [] := by
      rw [List.filter_eq_nil_iff]
      intro a ha hid
      rcases List.mem_filter.1 ha with ⟨hmem2, hne⟩
      have : a.name = N := hB a hmem2 (by simpa using hid)
      rw [this] at hne
      exact absurd hne (by simp)
    rw [h0]
    simp

/-- Witness for C3's amended statement at a concrete one-node store. -/
theorem claim_C3_amended_witness :
    ((applyOps (AppState.new [⟨"N"⟩] [] [] false)
        [.addNode 1 "N"]).try_add_node ⟨2, "N"⟩).1 = true ∧
    ((applyOps (AppState.new [⟨"N"⟩] [] [] false)
        [.addNode 1 "N"]).try_add_node ⟨2, "N"⟩).2.get_node 1 = none ∧
    ((applyOps (AppState.new [⟨"N"⟩] [] [] false)
        [.addNode 1 "N"]).try_add_node ⟨2, "N"⟩).2.get_node 2 =
      some ⟨2, "N"⟩ :=
  claim_C3_amended _ 1 2 "N" ⟨[⟨"N"⟩], [], [], false, [.addNode 1 "N"], rfl⟩
    (by decide) (by decide) (by decide) (by decide)

theorem splitsDesc_eq_append {s : List Char} {pr : List Char × List Char}
    (h : pr ∈ splitsDesc s) : s = pr.1 ++ pr.2 := by
  induction s generalizing pr with
  | nil =>
    simp only [splitsDesc, List.mem_singleton] at h
    rw [h]
    rfl
  | cons c cs ih =>
    simp only [splitsDesc, List.mem_append, List.mem_map,
      List.mem_singleton] at h
    rcases h with ⟨a, ha, heq⟩ | h
    · rw [← heq]
      have := ih ha
      simp only [List.cons_append]
      rw [← this]
    · rw [h]
      rfl

theorem mem_splitsDesc (p q : List Char) : (p, q) ∈ splitsDesc (p ++ q) := by
  induction p with
  | nil =>
    cases q with
    | nil => simp [splitsDesc]
    | cons c cs => simp [splitsDesc]
  | cons c cs ih =>
    simp only [List.cons_append, splitsDesc, List.mem_append, List.mem_map]
    exact Or.inl ⟨(cs, q), ih, rfl⟩

theorem firstSome_eq_some {α β : Type} {l : List α} {f : α → Option β} {b : β}
    (h : firstSome l f = some b) : ∃ a ∈ l, f a = some b := by
  induction l with
  | nil => simp [firstSome] at h
  | cons a t ih =>
    rw [show firstSome (a :: t) f =
        (match f a with | some b0 => some b0 | none => firstSome t f)
      from rfl] at h
    cases hfa : f a with
    | some b0 =>
      rw [hfa] at h
      exact ⟨a, by simp, by rw [hfa]; exact h⟩
    | none =>
      rw [hfa] at h
      rcases ih h with ⟨x, hx, hfx⟩
      exact ⟨x, by simp [hx], hfx⟩

theorem firstSome_isSome {α β : Type} {l : List α} {f : α → Option β} {a : α}
    (ha : a ∈ l) (hfa : (f a).isSome = true) :
    (firstSome l f).isSome = true := by
  induction l with
  | nil => simp at ha
  | cons x t ih =>
    rw [show firstSome (x :: t) f =
        (match f x with | some b0 => some b0 | none => firstSome t f)
      from rfl]
    cases hfx : f x with
    | some b => simp
    | none =>
      rcases List.mem_cons.1 ha with h | h
      · rw [h, hfx] at hfa
        simp at hfa
      · exact ih h

theorem dropWhile_decomp (p : Char → Bool) (s : List Char) :
    ∃ w, s = w ++ s.dropWhile p ∧ w.all p = true := by
  refine ⟨s.takeWhile p, (List.takeWhile_append_dropWhile p s).symm, ?_⟩
  rw [List.all_eq_true]
  exact fun c hc => List.mem_takeWhile_imp hc

theorem dropWhile_all_append (p : Char → Bool) (w t : List Char) (c : Char)
    (hw : w.all p = true) (hc : p c = false) :
    (w ++ c :: t).dropWhile p = c :: t := by
  induction w with
  | nil => simp [List.dropWhile_cons, hc]
  | cons x xs ih =>
    rw [List.all_cons] at hw
    rcases Bool.and_eq_true_iff.1 hw with ⟨hx, hxs⟩
    simp only [List.cons_append, List.dropWhile_cons, hx, if_true]
    exact ih hxs

theorem matchG4_sound {s g : List Char} (h : matchG4 s = some g) :
    ∃ suf, s = g ++ ')' :: suf ∧ g.all (fun ch => ch != '\n') = true := by
  rcases firstSome_eq_some h with ⟨p, hmem, hf⟩
  have hs := splitsDesc_eq_append hmem
  rcases hp2 : p.2 with _ | ⟨c, tail⟩ <;> rw [hp2] at hf <;> dsimp only at hf
  · simp at hf
  · split_ifs at hf with hcond
    · rcases Bool.and_eq_true_iff.1 hcond with ⟨hnl, hcp⟩
      have hc : c = ')' := by simpa using hcp
      have hg : g = p.1 := by simpa using hf.symm
      refine ⟨tail, ?_, by rw [hg]; exact hnl⟩
      rw [hs, hp2, hc, hg]

theorem matchAfterLBrack2_sound {s : List Char} {C D : List Char}
    (h : matchAfterLBrack2 s = some (C, D)) :
    ∃ suf, s = C ++ ']' :: '(' :: (D ++ ')' :: suf) ∧
      C.all (fun ch => ch != '\n') = true ∧
      D.all (fun ch => ch != '\n') = true := by
  rcases firstSome_eq_some h with ⟨p, hmem, hf⟩
  have hs := splitsDesc_eq_append hmem
  rcases hp2 : p.2 with _ | ⟨c1, _ | ⟨c2, rest⟩⟩ <;> rw [hp2] at hf <;> dsimp only at hf
  · simp at hf
  · simp at hf
  · split_ifs at hf with hcond
    · rcases Bool.and_eq_true_iff.1 hcond with ⟨hcond1, hc2⟩
      rcases Bool.and_eq_true_iff.1 hcond1 with ⟨hnl, hc1⟩
      have hc1e : c1 = ']' := by simpa using hc1
      have hc2e : c2 = '(' := by simpa using hc2
      rcases hg4 : matchG4 rest with _ | g4 <;> rw [hg4] at hf
      · simp at hf
      · dsimp only [Option.map] at hf
        injection hf with hf2
        have hC : C = p.1 := (congrArg Prod.fst hf2).symm
        have hD : D = g4 := (congrArg Prod.snd hf2).symm
        rcases matchG4_sound hg4 with ⟨suf, hrest, hDnl⟩
        refine ⟨suf, ?_, by rw [hC]; exact hnl, by rw [hD]; exact hDnl⟩
        rw [hs, hp2, hc1e, hc2e, hrest, hC, hD]

theorem matchAfterLParen1_sound {s : List Char} {B C D : List Char}
    (h : matchAfterLParen1 s = some (B, C, D)) :
    ∃ w1 w2 suf,
      s = B ++ ')' :: (w1 ++ '-' :: '>' :: (w2 ++ '[' ::
        (C ++ ']' :: '(' :: (D ++ ')' :: suf)))) ∧
      B.all (fun ch => ch != '\n') = true ∧
      C.all (fun ch => ch != '\n') = true ∧
      D.all (fun ch => ch != '\n') = true ∧
      w1.all isSpace = true ∧ w2.all isSpace = true := by
  rcases firstSome_eq_some h with ⟨p, hmem, hf⟩
  have hs := splitsDesc_eq_append hmem
  rcases hp2 : p.2 with _ | ⟨c0, rest⟩ <;> rw [hp2] at hf <;> dsimp only at hf
  · simp at hf
  · split_ifs at hf with hcond
    · rcases Bool.and_eq_true_iff.1 hcond with ⟨hnl, hc0⟩
      have hc0e : c0 = ')' := by simpa using hc0
      rcases hdw : rest.dropWhile isSpace with _ | ⟨c1, _ | ⟨c2, rest2⟩⟩ <;>
        rw [hdw] at hf <;> dsimp only at hf
      · simp at hf
      · simp at hf
      · split_ifs at hf with harrow
        · rcases Bool.and_eq_true_iff.1 harrow with ⟨hc1, hc2⟩
          have hc1e : c1 = '-' := by simpa using hc1
          have hc2e : c2 = '>' := by simpa using hc2
          rcases hdw2 : rest2.dropWhile isSpace with _ | ⟨c3, rest3⟩ <;>
            rw [hdw2] at hf <;> dsimp only at hf
          · simp at hf
          · split_ifs at hf with hbr
            · have hc3e : c3 = '[' := by simpa using hbr
              rcases hlb : matchAfterLBrack2 rest3 with _ | q <;>
                rw [hlb] at hf
              · simp at hf
              · dsimp only [Option.map] at hf
                injection hf with hf2
                have hB : B = p.1 := (congrArg Prod.fst hf2).symm
                have hq : q = (C, D) := congrArg Prod.snd hf2
                rw [hq] at hlb
                rcases matchAfterLBrack2_sound hlb with ⟨suf, hrest3, hCnl, hDnl⟩
                rcases dropWhile_decomp isSpace rest with ⟨w1, hw1, hw1all⟩
                rcases dropWhile_decomp isSpace rest2 with ⟨w2, hw2, hw2all⟩
                refine ⟨w1, w2, suf, ?_, by rw [hB]; exact hnl, hCnl, hDnl,
                  hw1all, hw2all⟩
                rw [hs, hp2, hc0e, hB]
                congr 1
                congr 1
                rw [hw1, hdw, hc1e, hc2e]
                congr 3
                rw [hw2, hdw2, hc3e, hrest3]

theorem matchAfterLBrack1_sound {s : List Char} {A B C D : List Char}
    (h : matchAfterLBrack1 s = some (A, B, C, D)) :
    ∃ w1 w2 suf,
      s = A ++ ']' :: '(' :: (B ++ ')' :: (w1 ++ '-' :: '>' :: (w2 ++ '[' ::
        (C ++ ']' :: '(' :: (D ++ ')' :: suf))))) ∧
      A.all (fun ch => ch != '\n') = true ∧
      B.all (fun ch => ch != '\n') = true ∧
      C.all (fun ch => ch != '\n') = true ∧
      D.all (fun ch => ch != '\n') = true ∧
      w1.all isSpace = true ∧ w2.all isSpace = true := by
  rcases firstSome_eq_some h with ⟨p, hmem, hf⟩
  have hs := splitsDesc_eq_append hmem
  rcases hp2 : p.2 with _ | ⟨c1, _ | ⟨c2, rest⟩⟩ <;> rw [hp2] at hf <;> dsimp only at hf
  · simp at hf
  · simp at hf
  · split_ifs at hf with hcond
    · rcases Bool.and_eq_true_iff.1 hcond with ⟨hcond1, hc2⟩
      rcases Bool.and_eq_true_iff.1 hcond1 with ⟨hnl, hc1⟩
      have hc1e : c1 = ']' := by simpa using hc1
      have hc2e : c2 = '(' := by simpa using hc2
      rcases hlp : matchAfterLParen1 rest with _ | q <;> rw [hlp] at hf
      · simp at hf
      · dsimp only [Option.map] at hf
        injection hf with hf2
        have hA : A = p.1 := (congrArg Prod.fst hf2).symm
        have hq : q = (B, C, D) := congrArg Prod.snd hf2
        rw [hq] at hlp
        rcases matchAfterLParen1_sound hlp with
          ⟨w1, w2, suf, hrest, hBnl, hCnl, hDnl, hw1, hw2⟩
        refine ⟨w1, w2, suf, ?_, by rw [hA]; exact hnl, hBnl, hCnl, hDnl,
          hw1, hw2⟩
        rw [hs, hp2, hc1e, hc2e, hrest, hA]

theorem matchG4_complete (D suf : List Char)
    (hD : D.all (fun ch => ch != '\n') = true) :
    (matchG4 (D ++ ')' :: suf)).isSome = true := by
  apply firstSome_isSome (mem_splitsDesc D (')' :: suf))
  simp [hD]

theorem matchAfterLBrack2_complete (C D suf : List Char)
    (hC : C.all (fun ch => ch != '\n') = true)
    (hD : D.all (fun ch => ch != '\n') = true) :
    (matchAfterLBrack2 (C ++ ']' :: '(' :: (D ++ ')' :: suf))).isSome =
      true := by
  apply firstSome_isSome (mem_splitsDesc C (']' :: '(' :: (D ++ ')' :: suf)))
  have h4 := matchG4_complete D suf hD
  simp [hC, h4]

theorem matchAfterLParen1_complete (B w1 w2 C D suf : List Char)
    (hB : B.all (fun ch => ch != '\n') = true)
    (hC : C.all (fun ch => ch != '\n') = true)
    (hD : D.all (fun ch => ch != '\n') = true)
    (hw1 : w1.all isSpace = true) (hw2 : w2.all isSpace = true) :
    (matchAfterLParen1 (B ++ ')' :: (w1 ++ '-' :: '>' :: (w2 ++ '[' ::
      (C ++ ']' :: '(' :: (D ++ ')' :: suf)))))).isSome = true := by
  apply firstSome_isSome (mem_splitsDesc B
    (')' :: (w1 ++ '-' :: '>' :: (w2 ++ '[' ::
      (C ++ ']' :: '(' :: (D ++ ')' :: suf))))))
  have hdw1 : (w1 ++ '-' :: '>' :: (w2 ++ '[' ::
      (C ++ ']' :: '(' :: (D ++ ')' :: suf)))).dropWhile isSpace =
      '-' :: '>' :: (w2 ++ '[' :: (C ++ ']' :: '(' :: (D ++ ')' :: suf))) :=
    dropWhile_all_append isSpace w1 _ '-' hw1 (by decide)
  have hdw2 : (w2 ++ '[' :: (C ++ ']' :: '(' ::
      (D ++ ')' :: suf))).dropWhile isSpace =
      '[' :: (C ++ ']' :: '(' :: (D ++ ')' :: suf)) :=
    dropWhile_all_append isSpace w2 _ '[' hw2 (by decide)
  have hlb := matchAfterLBrack2_complete C D suf hC hD
  simp [hB, hdw1, hdw2, hlb]

theorem matchAfterLBrack1_complete (A B w1 w2 C D suf : List Char)
    (hA : A.all (fun ch => ch != '\n') = true)
    (hB : B.all (fun ch => ch != '\n') = true)
    (hC : C.all (fun ch => ch != '\n') = true)
    (hD : D.all (fun ch => ch != '\n') = true)
    (hw1 : w1.all isSpace = true) (hw2 : w2.all isSpace = true) :
    (matchAfterLBrack1 (A ++ ']' :: '(' :: (B ++ ')' ::
      (w1 ++ '-' :: '>' :: (w2 ++ '[' ::
      (C ++ ']' :: '(' :: (D ++ ')' :: suf))))))).isSome = true := by
  apply firstSome_isSome (mem_splitsDesc A (']' :: '(' :: (B ++ ')' ::
    (w1 ++ '-' :: '>' :: (w2 ++ '[' ::
    (C ++ ']' :: '(' :: (D ++ ')' :: suf)))))))
  have hlp := matchAfterLParen1_complete B w1 w2 C D suf hB hC hD hw1 hw2
  simp [hA, hlp]

theorem matchRE_head (t : List Char)
    (h : (matchAfterLBrack1 t).isSome = true) :
    (matchRE ('[' :: t)).isSome = true := by
  unfold matchRE
  rw [if_pos rfl]
  rcases hm : matchAfterLBrack1 t with _ | r
  · rw [hm] at h
    simp at h
  · simp

theorem matchRE_tail (c : Char) (t : List Char)
    (h : (matchRE t).isSome = true) :
    (matchRE (c :: t)).isSome = true := by
  unfold matchRE
  by_cases hc : c = '['
  · rw [if_pos hc]
    rcases hm : matchAfterLBrack1 t with _ | r
    · simpa using h
    · simp
  · rw [if_neg hc]
    exact h

theorem consLinkShape (c : Char) {t : List Char} (h : IsLinkShape t) :
    IsLinkShape (c :: t) := by
  rcases h with ⟨pre, A, B, w1, w2, C, D, suf, ht, h1, h2, h3, h4, h5, h6⟩
  exact ⟨c :: pre, A, B, w1, w2, C, D, suf,
    by rw [List.cons_append, ← ht], h1, h2, h3, h4, h5, h6⟩

theorem matchRE_isSome_of_shape {s : List Char} (h : IsLinkShape s) :
    (matchRE s).isSome = true := by
  rcases h with ⟨pre, A, B, w1, w2, C, D, suf, hs, h1, h2, h3, h4, h5, h6⟩
  subst hs
  induction pre with
  | nil =>
    simp only [List.nil_append]
    exact matchRE_head _
      (matchAfterLBrack1_complete A B w1 w2 C D suf h1 h2 h3 h4 h5 h6)
  | cons c pre ih =>
    simp only [List.cons_append]
    exact matchRE_tail c _ ih

theorem shape_of_matchRE {s : List Char} (h : (matchRE s).isSome = true) :
    IsLinkShape s := by
  induction s with
  | nil => simp [matchRE] at h
  | cons c t ih =>
    unfold matchRE at h
    by_cases hc : c = '['
    · rw [if_pos hc] at h
      rcases hm : matchAfterLBrack1 t with _ | r
      · rw [hm] at h
        dsimp only at h
        exact consLinkShape c (ih h)
      · rcases r with ⟨A, B, C, D⟩
        rcases matchAfterLBrack1_sound hm with
          ⟨w1, w2, suf, ht, h1, h2, h3, h4, h5, h6⟩
        subst hc
        exact ⟨[], A, B, w1, w2, C, D, suf, by rw [ht]; rfl,
          h1, h2, h3, h4, h5, h6⟩
    · rw [if_neg hc] at h
      exact consLinkShape c (ih h)

theorem matchRE_isSome_iff (s : List Char) :
    (matchRE s).isSome = true ↔ IsLinkShape s :=
  ⟨shape_of_matchRE, matchRE_isSome_of_shape⟩

theorem getOrInsertPort_fst_name (m : List (String × PortDef)) (n : String)
    (nd : NodeDef) (h : PortMapWF m) : (getOrInsertPort m n nd).1.name = n := by
  unfold getOrInsertPort
  cases hf : m.find? (fun p => p.1 == n) with
  | none => rfl
  | some p =>
    dsimp only
    have hkey : p.1 = n := by
      have := List.find?_some hf
      simpa using this
    rw [h p (List.mem_of_find?_eq_some hf), hkey]

theorem getOrInsertPort_wf (m : List (String × PortDef)) (n : String)
    (nd : NodeDef) (h : PortMapWF m) :
    PortMapWF (getOrInsertPort m n nd).2 := by
  unfold getOrInsertPort
  cases hf : m.find? (fun p => p.1 == n) with
  | some p => exact h
  | none =>
    dsimp only
    intro pr hpr
    rcases List.mem_append.1 hpr with h1 | h1
    · exact h pr h1
    · have hx : pr = (n, ⟨nd, n⟩) := by simpa using h1
      rw [hx]

/-- Counterexample to C5: the code's regex uses greedy `.*` groups that may
cross closing delimiters and an unanchored match — the line below contains
no match of the claimed delimiter-excluding pattern, yet the parser
recognises it as a link line (invalid-report list stays empty and a link
definition is produced). -/
theorem claim_C5_cx :
    specMatchRE "[]]()->[]()".data = none ∧
    (processLine emptyParseState "[]]()->[]()").link_def ≠ [] ∧
    (processLine emptyParseState "[]]()->[]()").invalid = [] := by
  refine ⟨by decide, ?_, by decide⟩
  decide

/-- C5 as amended: a line is recognised as a link line exactly when some
substring of it decomposes as `[A](B)` spaces `->` spaces `[C](D)` with the
four greedy groups free of newlines (they may contain closing delimiters);
on a match exactly one link definition is appended and its ports carry the
`port_out`/`port_in` captures as names; on a non-match none is. -/
theorem claim_C5_amended (st : ParseState) (line : String)
    (hwf : PortMapWF st.port_def) :
    ((matchRE line.data).isSome = true ↔ IsLinkShape line.data) ∧
    (matchRE line.data = none →
      (processLine st line).link_def = st.link_def) ∧
    (∀ a b c d, matchRE line.data = some (a, b, c, d) →
      ∃ l : LinkDef, (processLine st line).link_def = st.link_def ++ [l] ∧
        l.port_out.name = String.mk b ∧ l.port_in.name = String.mk d) := by
  refine ⟨matchRE_isSome_iff line.data, ?_, ?_⟩
  · intro h
    unfold processLine
    rw [h]
    dsimp only
    split_ifs <;> rfl
  · intro a b c d h
    unfold processLine
    rw [h]
    dsimp only
    refine ⟨_, rfl, ?_, ?_⟩
    · exact getOrInsertPort_fst_name _ _ _ hwf
    · exact getOrInsertPort_fst_name _ _ _
        (getOrInsertPort_wf _ _ _ hwf)

/-- Witness for C5's amended statement on a concrete matching line. -/
theorem claim_C5_amended_witness :
    matchRE "[A](p) -> [X](q)".data =
      some (['A'], ['p'], ['X'], ['q']) ∧
    ∃ l : LinkDef,
      (processLine emptyParseState "[A](p) -> [X](q)").link_def =
        emptyParseState.link_def ++ [l] ∧
      l.port_out.name = String.mk ['p'] ∧ l.port_in.name = String.mk ['q'] :=
  ⟨by decide,
   (claim_C5_amended emptyParseState "[A](p) -> [X](q)"
      (by intro pr hpr; simp [emptyParseState] at hpr)).2.2
     ['A'] ['p'] ['X'] ['q'] (by decide)⟩

/-- Counterexample to C6: the code tests `line.starts_with('#')` without
trimming, so a comment line indented by whitespace — a comment under the
claim's "surrounding whitespace ignored" reading — is reported as invalid
rather than silently skipped. -/
theorem claim_C6_cx :
    ("  #c".data.dropWhile isSpace).head? = some '#' ∧
    matchRE "  #c".data = none ∧
    (processLine emptyParseState "  #c").invalid = ["  #c"] := by
  refine ⟨by decide, by decide, by decide⟩

/-- C6 as amended: a non-matching line is silently skipped iff its very
first character is `#` (no whitespace trimming); otherwise it is reported
as invalid; either way the parser state is otherwise unchanged, so no
definitions are added and parsing continues. -/
theorem claim_C6_amended (st : ParseState) (line : String)
    (h : matchRE line.data = none) :
    (line.data.head? = some '#' → processLine st line = st) ∧
    (line.data.head? ≠ some '#' →
      processLine st line = { st with invalid := st.invalid ++ [line] }) := by
  constructor
  · intro hh
    unfold processLine
    rw [h]
    dsimp only
    rw [if_pos hh]
  · intro hh
    unfold processLine
    rw [h]
    dsimp only
    rw [if_neg hh]

/-- Witness for C6's amended statement: a plain `#` comment is dropped, a
non-comment junk line is reported. -/
theorem claim_C6_amended_witness :
    (processLine emptyParseState "#x" = emptyParseState) ∧
    (processLine emptyParseState "zz" =
      { emptyParseState with invalid := emptyParseState.invalid ++ ["zz"] }) :=
  ⟨(claim_C6_amended emptyParseState "#x" (by decide)).1 (by decide),
   (claim_C6_amended emptyParseState "zz" (by decide)).2 (by decide)⟩

theorem processLine_nomatch (st : ParseState) (line : String)
    (h : matchRE line.data = none) :
    (processLine st line).node_def = st.node_def ∧
    (processLine st line).port_def = st.port_def ∧
    (processLine st line).link_def = st.link_def := by
  unfold processLine
  rw [h]
  dsimp only
  split_ifs <;> simp

theorem runLines_all_ok (st : ParseState) (reads : List (Except Unit String))
    (hok : ∀ r ∈ reads, ∃ l, r = Except.ok l) :
    ∃ st2, runLines st reads = .ok st2 := by
  induction reads generalizing st with
  | nil => exact ⟨st, rfl⟩
  | cons r rest ih =>
    rcases hok r (by simp) with ⟨l, rfl⟩
    exact ih (processLine st l) (fun r2 hr2 => hok r2 (by simp [hr2]))

theorem runLines_nomatch (st : ParseState) (reads : List (Except Unit String))
    (hok : ∀ r ∈ reads, ∃ l, r = Except.ok l)
    (hnm : ∀ l : String, Except.ok l ∈ reads → matchRE l.data = none) :
    ∃ st2, runLines st reads = .ok st2 ∧ st2.node_def = st.node_def ∧
      st2.port_def = st.port_def ∧ st2.link_def = st.link_def := by
  induction reads generalizing st with
  | nil => exact ⟨st, rfl, rfl, rfl, rfl⟩
  | cons r rest ih =>
    rcases hok r (by simp) with ⟨l, rfl⟩
    rcases ih (processLine st l) (fun r2 hr2 => hok r2 (by simp [hr2]))
      (fun l2 hl2 => hnm l2 (by simp [hl2])) with ⟨st2, h2, hn, hp, hl⟩
    rcases processLine_nomatch st l (hnm l (by simp)) with ⟨qn, qp, ql⟩
    exact ⟨st2, h2, by rw [hn, qn], by rw [hp, qp], by rw [hl, ql]⟩

/-- Counterexample to C9: the regex test precedes the comment test, so a
comment line that happens to contain the link pattern produces definitions —
a file consisting only of comment lines can yield non-empty sets. -/
theorem claim_C9_cx :
    "#[a](b)->[c](d)".data.head? = some '#' ∧
    ∃ s, parse_file [Except.ok "#[a](b)->[c](d)"] false = .ok s ∧
      s.link_def ≠ [] :=
  ⟨by decide, ⟨_, rfl, by decide⟩⟩

/-- C9 as amended: for a readable file none of whose lines matches the link
pattern (comment or not), parsing succeeds with empty definition sets; more
generally a file whose reads all succeed always parses successfully — only
an I/O failure while reading can fail the parse. -/
theorem claim_C9_amended (reads : List (Except Unit String)) (gn : Bool)
    (hok : ∀ r ∈ reads, ∃ l, r = Except.ok l) :
    (∃ s, parse_file reads gn = .ok s) ∧
    ((∀ l : String, Except.ok l ∈ reads → matchRE l.data = none) →
      ∃ s, parse_file reads gn = .ok s ∧ s.node_def = [] ∧
        s.port_def = [] ∧ s.link_def = []) := by
  constructor
  · rcases runLines_all_ok emptyParseState reads hok with ⟨st2, h2⟩
    exact ⟨_, by unfold parse_file; rw [h2]; rfl⟩
  · intro hnm
    rcases runLines_nomatch emptyParseState reads hok hnm with
      ⟨st2, h2, hn, hp, hl⟩
    refine ⟨AppState.new (st2.node_def.map (fun p => p.2)) st2.link_def
      (st2.port_def.map (fun p => p.2)) gn, ?_, ?_, ?_, ?_⟩
    · unfold parse_file
      rw [h2]
      rfl
    · simp [AppState.new, hn, emptyParseState]
    · simp [AppState.new, hp, emptyParseState]
    · simp [AppState.new, hl, emptyParseState]

/-- Witness for C9's amended statement on a concrete comment-and-junk file. -/
theorem claim_C9_amended_witness :
    ∃ s, parse_file [Except.ok "# a comment", Except.ok "junk line"] true =
      .ok s ∧ s.node_def = [] ∧ s.port_def = [] ∧ s.link_def = [] :=
  (claim_C9_amended [Except.ok "# a comment", Except.ok "junk line"] true
    (by intro r hr
        simp only [List.mem_cons, List.mem_singleton] at hr
        rcases hr with h | h | h
        · exact ⟨_, h⟩
        · exact ⟨_, h⟩
        · simp at h)).2
    (by intro l hl
        simp only [List.mem_cons, List.mem_singleton] at hl
        rcases hl with h | h | h
        · rw [Except.ok.inj h]
          decide
        · rw [Except.ok.inj h]
          decide
        · simp at h)

theorem getOrInsertNode_fst (m : List (String × NodeDef)) (n : String)
    (h : NodeMapWF m) : (getOrInsertNode m n).1 = ⟨n⟩ := by
  unfold getOrInsertNode
  cases hf : m.find? (fun p => p.1 == n) with
  | none => rfl
  | some p =>
    dsimp only
    obtain ⟨key, nm⟩ := p
    have hkey : key = n := by simpa using List.find?_some hf
    have hv : nm.name = key := h _ (List.mem_of_find?_eq_some hf)
    obtain ⟨s0⟩ := nm
    simp only at hv
    rw [hv, hkey]

theorem getOrInsertNode_wf (m : List (String × NodeDef)) (n : String)
    (h : NodeMapWF m) : NodeMapWF (getOrInsertNode m n).2 := by
  unfold getOrInsertNode
  cases hf : m.find? (fun p => p.1 == n) with
  | some p => exact h
  | none =>
    dsimp only
    intro pr hpr
    rcases List.mem_append.1 hpr with h1 | h1
    · exact h pr h1
    · have hx : pr = (n, ⟨n⟩) := by simpa using h1
      rw [hx]

theorem getOrInsertPort_preserves (m : List (String × PortDef)) (n : String)
    (nd : NodeDef) (k : String) (e : String × PortDef)
    (h : m.find? (fun p => p.1 == k) = some e) :
    (getOrInsertPort m n nd).2.find? (fun p => p.1 == k) = some e := by
  unfold getOrInsertPort
  cases hf : m.find? (fun p => p.1 == n) with
  | some p => exact h
  | none =>
    dsimp only
    rw [List.find?_append, h]
    rfl

theorem getOrInsertPort_nodup (m : List (String × PortDef)) (n : String)
    (nd : NodeDef) (h : PortKeysNodup m) :
    PortKeysNodup (getOrInsertPort m n nd).2 := by
  unfold getOrInsertPort
  cases hf : m.find? (fun p => p.1 == n) with
  | some p => exact h
  | none =>
    dsimp only
    unfold PortKeysNodup at h ⊢
    rw [List.map_append, List.nodup_append]
    refine ⟨h, by simp, ?_⟩
    intro x hx hx2
    have hxn : x = n := by simpa using hx2
    rcases List.mem_map.1 hx with ⟨pr, hpr, hpr1⟩
    have := List.find?_eq_none.1 hf pr hpr
    rw [hpr1, hxn] at this
    simp at this

theorem processLine_wf (st : ParseState) (line : String)
    (hn : NodeMapWF st.node_def) (hp : PortMapWF st.port_def)
    (hd : PortKeysNodup st.port_def) :
    NodeMapWF (processLine st line).node_def ∧
    PortMapWF (processLine st line).port_def ∧
    PortKeysNodup (processLine st line).port_def := by
  unfold processLine
  cases hm : matchRE line.data with
  | none =>
    dsimp only
    split_ifs <;> exact ⟨hn, hp, hd⟩
  | some caps =>
    obtain ⟨a, b, c, d⟩ := caps
    dsimp only
    exact ⟨getOrInsertNode_wf _ _ (getOrInsertNode_wf _ _ hn),
      getOrInsertPort_wf _ _ _ (getOrInsertPort_wf _ _ _ hp),
      getOrInsertPort_nodup _ _ _ (getOrInsertPort_nodup _ _ _ hd)⟩

theorem processLines_wf (st : ParseState) (lines : List String)
    (hn : NodeMapWF st.node_def) (hp : PortMapWF st.port_def)
    (hd : PortKeysNodup st.port_def) :
    NodeMapWF (processLines st lines).node_def ∧
    PortMapWF (processLines st lines).port_def ∧
    PortKeysNodup (processLines st lines).port_def := by
  induction lines generalizing st with
  | nil => exact ⟨hn, hp, hd⟩
  | cons l rest ih =>
    rcases processLine_wf st l hn hp hd with ⟨qn, qp, qd⟩
    exact ih (processLine st l) qn qp qd

theorem processLine_preserves_port_binding (st : ParseState) (line : String)
    (k : String) (e : String × PortDef)
    (h : st.port_def.find? (fun p => p.1 == k) = some e) :
    (processLine st line).port_def.find? (fun p => p.1 == k) = some e := by
  unfold processLine
  cases hm : matchRE line.data with
  | none =>
    dsimp only
    split_ifs <;> exact h
  | some caps =>
    obtain ⟨a, b, c, d⟩ := caps
    dsimp only
    exact getOrInsertPort_preserves _ _ _ _ _
      (getOrInsertPort_preserves _ _ _ _ _ h)

theorem processLines_preserves_port_binding (st : ParseState)
    (lines : List String) (k : String) (e : String × PortDef)
    (h : st.port_def.find? (fun p => p.1 == k) = some e) :
    (processLines st lines).port_def.find? (fun p => p.1 == k) = some e := by
  induction lines generalizing st with
  | nil => exact h
  | cons l rest ih =>
    exact ih (processLine st l) (processLine_preserves_port_binding st l k e h)

theorem processLines_append (st : ParseState) (xs ys : List String) :
    processLines st (xs ++ ys) = processLines (processLines st xs) ys := by
  simp [processLines, List.foldl_append]

theorem processLines_cons (st : ParseState) (l : String) (ls : List String) :
    processLines st (l :: ls) = processLines (processLine st l) ls := rfl

theorem processLine_match_fresh (st : ParseState) (line : String)
    (a b c d : List Char) (hm : matchRE line.data = some (a, b, c, d))
    (hwfn : NodeMapWF st.node_def)
    (hfresh : st.port_def.find? (fun p => p.1 == String.mk b) = none) :
    (processLine st line).port_def.find? (fun p => p.1 == String.mk b) =
      some (String.mk b, ⟨⟨String.mk a⟩, String.mk b⟩) ∧
    ∃ pi1, (processLine st line).link_def =
      st.link_def ++ [⟨pi1, ⟨⟨String.mk a⟩, String.mk b⟩⟩] := by
  unfold processLine
  rw [hm]
  dsimp only
  have hr1 : (getOrInsertNode st.node_def (String.mk a)).1 = ⟨String.mk a⟩ :=
    getOrInsertNode_fst _ _ hwfn
  have hr3 : getOrInsertPort st.port_def (String.mk b)
      (getOrInsertNode st.node_def (String.mk a)).1 =
      (⟨⟨String.mk a⟩, String.mk b⟩,
        st.port_def ++ [(String.mk b, ⟨⟨String.mk a⟩, String.mk b⟩)]) := by
    unfold getOrInsertPort
    rw [hfresh]
    dsimp only
    rw [hr1]
  rw [hr3]
  dsimp only
  have hbind : (st.port_def ++
      [(String.mk b, (⟨⟨String.mk a⟩, String.mk b⟩ : PortDef))]).find?
      (fun p => p.1 == String.mk b) =
      some (String.mk b, ⟨⟨String.mk a⟩, String.mk b⟩) := by
    rw [List.find?_append, hfresh]
    simp
  exact ⟨getOrInsertPort_preserves _ _ _ _ _ hbind, _, rfl⟩

theorem processLine_match_bound (st : ParseState) (line : String)
    (a b c d : List Char) (e : String × PortDef)
    (hm : matchRE line.data = some (a, b, c, d))
    (hbound : st.port_def.find? (fun p => p.1 == String.mk b) = some e) :
    ∃ pi2, (processLine st line).link_def = st.link_def ++ [⟨pi2, e.2⟩] := by
  unfold processLine
  rw [hm]
  dsimp only
  have hr3 : getOrInsertPort st.port_def (String.mk b)
      (getOrInsertNode st.node_def (String.mk a)).1 = (e.2, st.port_def) := by
    unfold getOrInsertPort
    rw [hbound]
  rw [hr3]
  exact ⟨_, rfl⟩

theorem port_values_filter (m : List (String × PortDef)) (k : String)
    (v : PortDef) (hwf : PortMapWF m) (hnd : PortKeysNodup m)
    (hfind : m.find? (fun p => p.1 == k) = some (k, v)) :
    (m.map (fun p => p.2)).filter (fun x => x.name == k) = [v] := by
  induction m with
  | nil => simp at hfind
  | cons pr rest ih =>
    rw [List.find?_cons] at hfind
    unfold PortKeysNodup at hnd
    rw [List.map_cons, List.nodup_cons] at hnd
    by_cases hk : pr.1 = k
    · rw [show (pr.1 == k) = true by simpa using hk] at hfind
      simp only [cond_true, Option.some_inj] at hfind
      have hname : pr.2.name = k := by
        rw [hwf pr (by simp), hk]
      rw [List.map_cons, List.filter_cons]
      rw [hfind] at hname ⊢
      simp only [hname, beq_self_eq_true, if_true]
      have hrest : (rest.map (fun p => p.2)).filter
          (fun x => x.name == k) = [] := by
        rw [List.filter_eq_nil_iff]
        intro x hx hxk
        rcases List.mem_map.1 hx with ⟨pr2, hpr2, hpr2e⟩
        have h2 : pr2.2.name = pr2.1 := hwf pr2 (by simp [hpr2])
        rw [← hpr2e, h2] at hxk
        have : pr2.1 = k := by simpa using hxk
        rw [hfind] at hnd
        exact hnd.1 (this ▸ List.mem_map.2 ⟨pr2, hpr2, rfl⟩)
      rw [hrest]
      simp only at hname
      rw [hname]
      simp
    · rw [show (pr.1 == k) = false by simpa using hk] at hfind
      simp only [cond_false] at hfind
      rw [List.map_cons, List.filter_cons]
      have hname : (pr.2.name == k) = false := by
        rw [hwf pr (by simp)]
        simpa using hk
      simp only [hname, Bool.false_eq_true, if_false]
      exact ih (fun p hp => hwf p (by simp [hp])) hnd.2 hfind

/-- C7: the parser keys PortDefinitions by port name alone.  If a port-out
name first bound on line L1 (under node-out capture `a`) recurs as the
port-out of a later line L2 under a different node name, the final map holds
exactly one PortDefinition for that name — the one tied to L1's node — and
the links appended for both L1 and L2 reference that single definition. -/
theorem claim_C7 (pre mid post : List String) (L1 L2 : String)
    (a b c d a2 c2 d2 : List Char)
    (h1 : matchRE L1.data = some (a, b, c, d))
    (h2 : matchRE L2.data = some (a2, b, c2, d2))
    (hdiff : String.mk a ≠ String.mk a2)
    (hfresh : (processLines emptyParseState pre).port_def.find?
      (fun p => p.1 == String.mk b) = none) :
    (processLines emptyParseState
        (pre ++ L1 :: (mid ++ L2 :: post))).port_def.find?
      (fun p => p.1 == String.mk b) =
      some (String.mk b, ⟨⟨String.mk a⟩, String.mk b⟩) ∧
    ((processLines emptyParseState
        (pre ++ L1 :: (mid ++ L2 :: post))).port_def.map
      (fun p => p.2)).filter (fun v => v.name == String.mk b) =
      [⟨⟨String.mk a⟩, String.mk b⟩] ∧
    (∃ pi1, (processLines emptyParseState (pre ++ [L1])).link_def =
      (processLines emptyParseState pre).link_def ++
        [⟨pi1, ⟨⟨String.mk a⟩, String.mk b⟩⟩]) ∧
    (∃ pi2,
      (processLines emptyParseState (pre ++ L1 :: (mid ++ [L2]))).link_def =
      (processLines emptyParseState (pre ++ L1 :: mid)).link_def ++
        [⟨pi2, ⟨⟨String.mk a⟩, String.mk b⟩⟩]) := by
  have hwf0n : NodeMapWF emptyParseState.node_def := by
    intro pr hpr
    simp [emptyParseState] at hpr
  have hwf0p : PortMapWF emptyParseState.port_def := by
    intro pr hpr
    simp [emptyParseState] at hpr
  have hwf0d : PortKeysNodup emptyParseState.port_def := by
    simp [PortKeysNodup, emptyParseState]
  obtain ⟨hn_pre, hp_pre, hd_pre⟩ :=
    processLines_wf emptyParseState pre hwf0n hwf0p hwf0d
  obtain ⟨hbind1, pi1, hlink1⟩ := processLine_match_fresh
    (processLines emptyParseState pre) L1 a b c d h1 hn_pre hfresh
  have e1 : processLines emptyParseState (pre ++ [L1]) =
      processLine (processLines emptyParseState pre) L1 := by
    rw [processLines_append]
    rfl
  have hbind_mid := processLines_preserves_port_binding
    (processLine (processLines emptyParseState pre) L1) mid _ _ hbind1
  obtain ⟨pi2, hlink2⟩ := processLine_match_bound
    (processLines (processLine (processLines emptyParseState pre) L1) mid)
    L2 a2 b c2 d2 _ h2 hbind_mid
  have e2 : processLines emptyParseState (pre ++ L1 :: mid) =
      processLines (processLine (processLines emptyParseState pre) L1) mid := by
    rw [processLines_append, processLines_cons]
  have e3 : processLines emptyParseState (pre ++ L1 :: (mid ++ [L2])) =
      processLine (processLines (processLine
        (processLines emptyParseState pre) L1) mid) L2 := by
    rw [processLines_append, processLines_cons, processLines_append]
    rfl
  have e4 : processLines emptyParseState (pre ++ L1 :: (mid ++ L2 :: post)) =
      processLines (processLine (processLines (processLine
        (processLines emptyParseState pre) L1) mid) L2) post := by
    rw [processLines_append, processLines_cons, processLines_append,
      processLines_cons]
  have hbind_after := processLine_preserves_port_binding
    (processLines (processLine (processLines emptyParseState pre) L1) mid)
    L2 _ _ hbind_mid
  have hbind_final := processLines_preserves_port_binding _ post _ _ hbind_after
  obtain ⟨hn_fin, hp_fin, hd_fin⟩ := processLines_wf emptyParseState
    (pre ++ L1 :: (mid ++ L2 :: post)) hwf0n hwf0p hwf0d
  refine ⟨?_, ?_, ⟨pi1, ?_⟩, ⟨pi2, ?_⟩⟩
  · rw [e4]
    exact hbind_final
  · apply port_values_filter _ _ _ hp_fin hd_fin
    rw [e4]
    exact hbind_final
  · rw [e1]
    exact hlink1
  · rw [e3, e2]
    exact hlink2

/-- Witness for C7: the same port name `p` under nodes `A` and `B` on two
lines collapses to one PortDefinition bound to `A`. -/
theorem claim_C7_witness :
    (processLines emptyParseState
        ["[A](p) -> [X](q)", "[B](p) -> [Y](r)"]).port_def.find?
      (fun p => p.1 == String.mk ['p']) =
      some (String.mk ['p'], ⟨⟨String.mk ['A']⟩, String.mk ['p']⟩) ∧
    ((processLines emptyParseState
        ["[A](p) -> [X](q)", "[B](p) -> [Y](r)"]).port_def.map
      (fun p => p.2)).filter (fun v => v.name == String.mk ['p']) =
      [⟨⟨String.mk ['A']⟩, String.mk ['p']⟩] ∧
    (∃ pi1, (processLines emptyParseState ["[A](p) -> [X](q)"]).link_def =
      (processLines emptyParseState []).link_def ++
        [⟨pi1, ⟨⟨String.mk ['A']⟩, String.mk ['p']⟩⟩]) ∧
    (∃ pi2, (processLines emptyParseState
        ["[A](p) -> [X](q)", "[B](p) -> [Y](r)"]).link_def =
      (processLines emptyParseState ["[A](p) -> [X](q)"]).link_def ++
        [⟨pi2, ⟨⟨String.mk ['A']⟩, String.mk ['p']⟩⟩]) :=
  claim_C7 [] [] [] "[A](p) -> [X](q)" "[B](p) -> [Y](r)"
    ['A'] ['p'] ['X'] ['q'] ['B'] ['Y'] ['r']
    (by decide) (by decide) (by decide) (by decide)
